import Mathlib

/-!
Verification development for the `ftl` buffer library (`src/ftl/buffer.h`).

The development is a shallow embedding of the C++ source:
* the endian codec `buffer_internal::Endian` works on byte sequences;
  a value of a multi-byte numeric type (16/32/64-bit integer, float, double)
  is represented bit-for-bit by its native byte pattern, a `List Byte`
  of length `sizeof(T)`;
* the growable container `buffer_internal::SimpleBufferT` is a record of
  its fields (`buf_`, `size_`, `capacity_`, `shrink_counter_`, `ref_`);
  the caller-supplied external region referenced by a borrowed container
  is passed explicitly as a `List Byte` parameter;
* the random-access `BufferT` and sequential `StreamBufferT` are records
  over byte lists; operations that can throw `std::out_of_range` return an
  `Except` value paired with the post-state (a thrown exception leaves the
  state exactly as it was, because in the source `xran` throws before any
  mutation happens).

`size_t` values are modelled as `Nat`, and every `size_t` sum or
difference the source feeds into a bounds check or clamp over
caller-supplied offsets and counts — the `offset + sizeof(T)` guards of
`BufferT::read`/`write`, the `count + offset` comparison and the
`size() - offset` difference of `BufferT::slice`, and the
`offset + count` clamp of `BufferT::fill` — is computed exactly as the
hardware does, modulo `2 ^ 64` (`UMAX`, `usub`). The cursor's guards
compare internal indices that never exceed the buffer size in any
reachable state, so plain `Nat` arithmetic coincides with `size_t` there.
-/

set_option autoImplicit false

namespace ftl

/-- A byte; the source's `uint8_t` / `char` storage cell. -/
abbrev Byte := Nat

/-- `buffer_internal::Endian::Endianness` (buffer.h lines 460-463). -/
inductive Endianness
  | kBigEndian
  | kLittleEndian
deriving DecidableEq, Repr

namespace Endian

/-- `Endian::Swizzle` (buffer.h lines 465-472): in-place two-ended byte swap
over exactly `len` bytes, i.e. reversal of the byte sequence. -/
def Swizzle (bytes : List Byte) : List Byte := bytes.reverse

/-- `Endian::read<_Ty, _RetTy, endianness>` (buffer.h lines 494-506):
`memcpy` the `sizeof(_RetTy)` bytes at `buf` into a union, reverse them when
the host order differs from the requested one, and return the resulting
value. The returned value is represented by its native byte pattern.
`host` is `CurrentEndian()` (buffer.h lines 483-487), passed explicitly so
that theorems can quantify over the host byte order. -/
def readBytes (host req : Endianness) (bytes : List Byte) : List Byte :=
  if host ≠ req then Swizzle bytes else bytes

/-- `Endian::write<_Ty, _SrcTy, endianness>` (buffer.h lines 508-519):
take the native byte pattern of `value`, reverse it when the host order
differs from the requested one; the result is what gets `memcpy`ed into the
destination. -/
def writeBytes (host req : Endianness) (pat : List Byte) : List Byte :=
  if host ≠ req then Swizzle pat else pat

/-- Little-endian interpretation of a byte list (least significant byte
first). Used to relate a native byte pattern to the unsigned integer it
represents. -/
def leVal : List Byte → Nat
  | [] => 0
  | b :: bs => b + 256 * leVal bs

/-- The unsigned integer whose native byte pattern on a host with byte
order `host` is `bytes`: on a little-endian host the first byte is least
significant, on a big-endian host it is most significant. -/
def valOfNative (host : Endianness) (bytes : List Byte) : Nat :=
  match host with
  | .kLittleEndian => leVal bytes
  | .kBigEndian => leVal bytes.reverse

/-- Numeric result of `Endian::read`: the byte pattern produced by
`readBytes`, interpreted as an unsigned integer in the host's
representation (the union member `na.val`). -/
def readVal (host req : Endianness) (bytes : List Byte) : Nat :=
  valOfNative host (readBytes host req bytes)

theorem length_writeBytes (host req : Endianness) (pat : List Byte) :
    (writeBytes host req pat).length = pat.length := by
  unfold writeBytes Swizzle
  split <;> simp

theorem length_readBytes (host req : Endianness) (bytes : List Byte) :
    (readBytes host req bytes).length = bytes.length := by
  unfold readBytes Swizzle
  split <;> simp

/-- Reading back the byte pattern produced by `writeBytes` with the same
host and requested order recovers the original pattern: the conditional
swizzles cancel. -/
theorem readBytes_writeBytes (host req : Endianness) (pat : List Byte) :
    readBytes host req (writeBytes host req pat) = pat := by
  unfold readBytes writeBytes Swizzle
  by_cases h : host = req <;> simp [h]

end Endian

/-- The single error kind of the bounds-checked operations:
`std::out_of_range` thrown by `BufferT::xran` / `StreamBufferT::xran`. -/
inductive BufferError
  | OutOfRange
deriving DecidableEq, Repr

/-- `ftl::BufferT` (buffer.h lines 524-891), specialised to byte storage
(`byte_buffer`): the logical content is the `size()`-byte sequence
`data`. -/
structure BufferT where
  data : List Byte
deriving DecidableEq, Repr

namespace BufferT

/-- `BufferT::size` (buffer.h lines 614-616). -/
def size (b : BufferT) : Nat := b.data.length

/-- `std::memcpy(l + offset, repl, repl.length)`: overwrite the bytes at
positions `offset, …, offset + repl.length - 1` of `l` with `repl`.
Faithful to the source whenever `offset + repl.length ≤ l.length`, which
every caller in this development checks first. -/
def listOverwrite (l : List Byte) (offset : Nat) (repl : List Byte) : List Byte :=
  l.take offset ++ repl ++ l.drop (offset + repl.length)

theorem length_listOverwrite (l : List Byte) (offset : Nat) (repl : List Byte)
    (h : offset + repl.length ≤ l.length) :
    (listOverwrite l offset repl).length = l.length := by
  unfold listOverwrite
  simp only [List.length_append, List.length_take, List.length_drop]
  omega

theorem take_listOverwrite (l : List Byte) (offset : Nat) (repl : List Byte)
    (h : offset + repl.length ≤ l.length) :
    (listOverwrite l offset repl).take offset = l.take offset := by
  unfold listOverwrite
  rw [List.append_assoc, List.take_append_eq_append_take]
  have hlen : (l.take offset).length = offset := by
    simp only [List.length_take]; omega
  rw [hlen]
  simp

theorem drop_listOverwrite (l : List Byte) (offset : Nat) (repl : List Byte)
    (h : offset + repl.length ≤ l.length) :
    (listOverwrite l offset repl).drop (offset + repl.length)
      = l.drop (offset + repl.length) := by
  unfold listOverwrite
  rw [List.drop_append_eq_append_drop]
  have hlen : (l.take offset ++ repl).length = offset + repl.length := by
    simp only [List.length_append, List.length_take]; omega
  rw [List.drop_append_eq_append_drop, hlen]
  have h1 : (l.take offset).length = offset := by
    simp only [List.length_take]; omega
  rw [h1]
  simp [List.drop_eq_nil_of_le, Nat.le_refl]

theorem extract_listOverwrite (l : List Byte) (offset : Nat) (repl : List Byte)
    (h : offset + repl.length ≤ l.length) :
    ((listOverwrite l offset repl).drop offset).take repl.length = repl := by
  unfold listOverwrite
  rw [List.append_assoc, List.drop_append_eq_append_drop]
  have hlen : (l.take offset).length = offset := by
    simp only [List.length_take]; omega
  rw [hlen]
  have hnil : (l.take offset).drop offset = [] :=
    List.drop_eq_nil_of_le (by omega)
  simp only [Nat.sub_self, List.drop_zero, hnil, List.nil_append]
  rw [List.take_append_eq_append_take]
  simp

/-- The modulus of the source's `size_type` (`size_t`, unsigned 64-bit).
All `size_t` sums and differences feeding the bounds checks and clamps
below are computed modulo this, exactly as the source computes them. -/
def UMAX : Nat := 2 ^ 64

/-- C++ unsigned 64-bit subtraction `a - b`: wraps modulo `2 ^ 64`.
Faithful for `a < 2 ^ 64` and `b ≤ 2 ^ 64`, which holds for every
`size_t` value. -/
def usub (a b : Nat) : Nat := (a + (UMAX - b)) % UMAX

/-- `BufferT::read<_RetTy, endianness>` (buffer.h lines 702-712): if the
`size_t` sum `offset + sizeof(_RetTy)` (which wraps modulo `2 ^ 64` for
`offset ≥ 2^64 - sizeof(_RetTy)`) exceeds `size()`, throw
`std::out_of_range` (via `xran`), else decode the `sizeof(_RetTy)` bytes
at `offset` through `Endian::read`. `n` is `sizeof(_RetTy)`; the decoded
value is its native byte pattern. The second component is the buffer after
the call (the function is `const`; it never writes). When the wrapped
guard passes but `offset + n > size()` the source reads out of bounds
(undefined behaviour); the model then decodes the (shorter) byte sequence
left past `offset`. -/
def read (host req : Endianness) (n : Nat) (b : BufferT) (offset : Nat) :
    Except BufferError (List Byte) × BufferT :=
  if (offset + n) % UMAX > b.size then (.error .OutOfRange, b)
  else (.ok (Endian.readBytes host req ((b.data.drop offset).take n)), b)

/-- `BufferT::read<_RetTy, endianness>`, returning the decoded value as an
unsigned integer (the union member `na.val` of `Endian::read`, interpreted
in the host's representation). -/
def readVal (host req : Endianness) (n : Nat) (b : BufferT) (offset : Nat) :
    Except BufferError Nat × BufferT :=
  if (offset + n) % UMAX > b.size then (.error .OutOfRange, b)
  else (.ok (Endian.readVal host req ((b.data.drop offset).take n)), b)

/-- `BufferT::read_be` (buffer.h lines 719-722): `read` with requested
order `kBigEndian`. -/
def read_be (host : Endianness) (n : Nat) (b : BufferT) (offset : Nat) :
    Except BufferError Nat × BufferT :=
  readVal host .kBigEndian n b offset

/-- `BufferT::read_le` (buffer.h lines 714-717): `read` with requested
order `kLittleEndian`. -/
def read_le (host : Endianness) (n : Nat) (b : BufferT) (offset : Nat) :
    Except BufferError Nat × BufferT :=
  readVal host .kLittleEndian n b offset

/-- `BufferT::write<_SrcTy, endianness>` (buffer.h lines 771-780): if the
`size_t` sum `offset + sizeof(value)` (wrapping modulo `2 ^ 64`) exceeds
`size()`, throw `std::out_of_range` (via `xran`), else `Endian::write` the
value's bytes at `offset`. `pat` is the value's native byte pattern
(`pat.length = sizeof(_SrcTy)`). When the wrapped guard passes but
`offset + pat.length > size()` the source `memcpy` writes out of bounds
(undefined behaviour); the model is only faithful where the guarded access
is in bounds. -/
def write (host req : Endianness) (pat : List Byte) (b : BufferT) (offset : Nat) :
    Except BufferError Unit × BufferT :=
  if (offset + pat.length) % UMAX > b.size then (.error .OutOfRange, b)
  else (.ok (), ⟨listOverwrite b.data offset (Endian.writeBytes host req pat)⟩)

/-- The byte count `BufferT::slice` (buffer.h lines 632-641) passes to the
copying constructor `BufferT(begin() + offset, count)`:
`0` when the source is empty, the `size_t` difference `size() - offset`
when the `size_t` sum `count + offset` reaches `size()`, and `count`
otherwise. Both the comparison's sum and the difference are computed in
`size_t`, i.e. modulo `2 ^ 64`; in particular when `offset > size()` the
difference wraps around. -/
def sliceCount (b : BufferT) (offset count : Nat) : Nat :=
  if b.size = 0 then 0
  else if (count + offset) % UMAX ≥ b.size then usub b.size offset
  else count

/-- `BufferT::slice` (buffer.h lines 632-641): an independent copy of
`sliceCount` bytes starting at `begin() + offset`. When `sliceCount`
exceeds the bytes available past `offset` the source `memcpy` reads out of
bounds (undefined behaviour); the model then truncates at the end of the
region. -/
def slice (b : BufferT) (offset count : Nat) : BufferT :=
  ⟨(b.data.drop offset).take (sliceCount b offset count)⟩

/-- The byte count `BufferT::fill` (buffer.h lines 626-630) actually
fills: the `size_t` difference `size() - offset` when `count == 0` or the
`size_t` sum `offset + count` (wrapping modulo `2 ^ 64`) exceeds `size()`
(the clamping branch), and `count` otherwise. For `offset + count ≥ 2^64`
the wrapped sum bypasses the clamp and the source's `std::fill` runs past
the buffer (undefined behaviour). -/
def fillCount (b : BufferT) (offset count : Nat) : Nat :=
  if count = 0 ∨ (offset + count) % UMAX > b.size then usub b.size offset
  else count

/-- `BufferT::fill` (buffer.h lines 626-630):
`std::fill(begin() + offset, begin() + offset + fillCount, value)`.
There is no bounds check and no throw in the source. Faithful whenever
`offset + fillCount ≤ size()`; otherwise the source writes out of bounds
(undefined behaviour). -/
def fill (b : BufferT) (v : Byte) (offset count : Nat) : BufferT :=
  ⟨listOverwrite b.data offset (List.replicate (fillCount b offset count) v)⟩

end BufferT

namespace buffer_internal

/-- `buffer_internal::SimpleBufferT` (buffer.h lines 151-424), specialised
to byte storage. `buf` is the content of the owned heap allocation
(length = `capacity` in every reachable owned state); while `ref = true`
the live bytes are instead the prefix of the caller-supplied external
region, which operations receive as an explicit `region` parameter. -/
structure SimpleBufferT where
  buf : List Byte
  size : Nat
  capacity : Nat
  shrink_counter : Nat
  ref : Bool
deriving DecidableEq, Repr

namespace SimpleBufferT

/-- `DefaultMiniReserveSize` / `DEFAULT_MINI_SIZE` (buffer.h lines 151-154). -/
def DEFAULT_MINI_SIZE : Nat := 32

/-- `DEFAULT_SHRINK_TRIGGER_COUNT` (buffer.h line 153). -/
def DEFAULT_SHRINK_TRIGGER_COUNT : Nat := 2

/-- The default-constructed container (buffer.h lines 165-171). -/
def mk0 : SimpleBufferT :=
  { buf := [], size := 0, capacity := 0, shrink_counter := 0, ref := false }

/-- Effect of `alloc_.reallocate(buf_, newCap)` on the allocation's
content, and likewise of `alloc_.allocate(newCap)` followed by
`memcpy(p, src, src.length)`: the first `min (l.length) newCap` bytes are
preserved and the rest of the fresh region is unspecified (modelled as
zero bytes; no claim depends on their value). -/
def reallocBytes (l : List Byte) (newCap : Nat) : List Byte :=
  l.take newCap ++ List.replicate (newCap - l.length) 0

theorem length_reallocBytes (l : List Byte) (newCap : Nat) :
    (reallocBytes l newCap).length = newCap := by
  unfold reallocBytes
  simp only [List.length_append, List.length_take, List.length_replicate]
  omega

/-- `SimpleBufferT::reserve` (buffer.h lines 400-423). The source first
computes the new capacity — `max(n, 2*capacity_)` then `max(32, ·)` when
`n > capacity_`, exactly `n` when `n < capacity_`, early return when
`n == capacity_` — and then reallocates: `realloc` for an owned buffer,
or (for a borrowed one) a fresh allocation, `memcpy` of the current
`size_` bytes out of the referenced region, and `ref_ = false`. -/
def reserve (region : List Byte) (s : SimpleBufferT) (n : Nat) : SimpleBufferT :=
  if n = s.capacity then s
  else
    let newCap := if n > s.capacity then max DEFAULT_MINI_SIZE (max n (2 * s.capacity)) else n
    if s.ref then
      { s with capacity := newCap, buf := reallocBytes (region.take s.size) newCap, ref := false }
    else
      { s with capacity := newCap, buf := reallocBytes s.buf newCap }

/-- `SimpleBufferT::clear` (buffer.h lines 382-390): deallocate (if owned),
null the pointer, zero everything. -/
def clear (_s : SimpleBufferT) : SimpleBufferT :=
  mk0

/-- `SimpleBufferT::resize` (buffer.h lines 337-344): `clear` when
`n == 0`, `reserve(n)` when `n > capacity_`, then `size_ = n`. -/
def resize (region : List Byte) (s : SimpleBufferT) (n : Nat) : SimpleBufferT :=
  if n = 0 then { clear s with size := 0 }
  else if n > s.capacity then { reserve region s n with size := n }
  else { s with size := n }

/-- `SimpleBufferT::shrink` (buffer.h lines 360-369): when
`size_ > 0 && size_ < 2 * capacity_`, increment the trigger counter and,
once it exceeds `DEFAULT_SHRINK_TRIGGER_COUNT`, compact via
`reserve(size_)` and reset the counter; otherwise reset the counter. -/
def shrink (region : List Byte) (s : SimpleBufferT) : SimpleBufferT :=
  if 0 < s.size ∧ s.size < 2 * s.capacity then
    if s.shrink_counter + 1 > DEFAULT_SHRINK_TRIGGER_COUNT then
      { reserve region s s.size with shrink_counter := 0 }
    else
      { s with shrink_counter := s.shrink_counter + 1 }
  else
    { s with shrink_counter := 0 }

/-- `SimpleBufferT::shrink_to_fit` (buffer.h lines 371-376):
`reserve(size_)` when `size_ > 0`, then reset the trigger counter. -/
def shrink_to_fit (region : List Byte) (s : SimpleBufferT) : SimpleBufferT :=
  if 0 < s.size then { reserve region s s.size with shrink_counter := 0 }
  else { s with shrink_counter := 0 }

/-- `SimpleBufferT::ref(pointer buf, size_type size)` (buffer.h lines
263-271): when the region is non-empty, a borrowed container whose
`buf_` points at the region and whose `size_ == capacity_ ==` region
length; otherwise the default container. -/
def refCtor (region : List Byte) : SimpleBufferT :=
  if 0 < region.length then
    { buf := [], size := region.length, capacity := region.length,
      shrink_counter := 0, ref := true }
  else
    mk0

/-- The live byte content of a container: the first `size_` bytes behind
`buf_`, which is the external region while borrowed and the owned
allocation otherwise. -/
def contents (region : List Byte) (s : SimpleBufferT) : List Byte :=
  if s.ref then region.take s.size else s.buf.take s.size

/-- Representation invariant relating a container to the external region
it may reference; it holds for every reachable state. -/
def Inv (region : List Byte) (s : SimpleBufferT) : Prop :=
  s.size ≤ s.capacity
  ∧ (s.ref = false → s.buf.length = s.capacity)
  ∧ (s.ref = true → s.capacity = region.length)
  ∧ (s.size = 0 → s.capacity = 0 ∧ s.buf = [] ∧ s.ref = false)

instance (region : List Byte) (s : SimpleBufferT) : Decidable (Inv region s) := by
  unfold Inv
  infer_instance

/-- A world pairing a container with the caller-supplied external region:
the store a borrowed container's `buf_` pointer aliases. -/
structure World where
  region : List Byte
  cont : SimpleBufferT
deriving DecidableEq, Repr

/-- A single-byte store through the container's `buf_` pointer (as done by
`BufferT::write` and friends): while borrowed it lands in the caller's
region, once owned it lands in the owned allocation. -/
def writeByteW (w : World) (i : Nat) (v : Byte) : World :=
  if w.cont.ref then { w with region := w.region.set i v }
  else { w with cont := { w.cont with buf := w.cont.buf.set i v } }

/-- A mutation of the caller's region through the caller's own pointer. -/
def regionWriteW (w : World) (i : Nat) (v : Byte) : World :=
  { w with region := w.region.set i v }

theorem size_reserve (region : List Byte) (s : SimpleBufferT) (n : Nat) :
    (reserve region s n).size = s.size := by
  unfold reserve
  by_cases he : n = s.capacity
  · simp [he]
  · cases hr : s.ref <;> simp [he, hr]

theorem capacity_reserve_of_le (region : List Byte) (s : SimpleBufferT) (n : Nat)
    (h : n ≤ s.capacity) : (reserve region s n).capacity = n := by
  unfold reserve
  by_cases he : n = s.capacity
  · simp [he]
  · have hlt : ¬ n > s.capacity := by omega
    cases hr : s.ref <;> simp [he, hr, hlt]

theorem take_reallocBytes (l : List Byte) (c k : Nat)
    (hk : k ≤ l.length) (hc : l.length ≤ c) :
    (reallocBytes l c).take k = l.take k := by
  unfold reallocBytes
  rw [List.take_of_length_le hc, List.take_append_eq_append_take]
  have h0 : k - l.length = 0 := by omega
  rw [h0]
  simp

theorem reserve_grow_owned (region : List Byte) (s : SimpleBufferT) (n : Nat)
    (hgt : n > s.capacity) (hr : s.ref = false) :
    reserve region s n
      = { s with capacity := max DEFAULT_MINI_SIZE (max n (2 * s.capacity)),
                 buf := reallocBytes s.buf
                   (max DEFAULT_MINI_SIZE (max n (2 * s.capacity))) } := by
  unfold reserve
  rw [if_neg (by omega : ¬ n = s.capacity)]
  simp [hr, hgt]

theorem reserve_grow_borrowed (region : List Byte) (s : SimpleBufferT) (n : Nat)
    (hgt : n > s.capacity) (hr : s.ref = true) :
    reserve region s n
      = { s with capacity := max DEFAULT_MINI_SIZE (max n (2 * s.capacity)),
                 buf := reallocBytes (region.take s.size)
                   (max DEFAULT_MINI_SIZE (max n (2 * s.capacity))),
                 ref := false } := by
  unfold reserve
  rw [if_neg (by omega : ¬ n = s.capacity)]
  simp [hr, hgt]

theorem ref_reserve (region : List Byte) (s : SimpleBufferT) (n : Nat)
    (hr : s.ref = false) : (reserve region s n).ref = false := by
  unfold reserve
  by_cases he : n = s.capacity
  · simp [he, hr]
  · simp [he, hr]

theorem ref_resize (region : List Byte) (s : SimpleBufferT) (n : Nat)
    (hr : s.ref = false) : (resize region s n).ref = false := by
  unfold resize
  by_cases h0 : n = 0
  · simp [h0, clear, mk0]
  · by_cases hc : n > s.capacity
    · simp [h0, hc, ref_reserve region s n hr]
    · simp [h0, hc, hr]

theorem ref_shrink (region : List Byte) (s : SimpleBufferT)
    (hr : s.ref = false) : (shrink region s).ref = false := by
  unfold shrink
  by_cases hg : 0 < s.size ∧ s.size < 2 * s.capacity
  · by_cases ht : s.shrink_counter + 1 > DEFAULT_SHRINK_TRIGGER_COUNT
    · simp [hg, ht, ref_reserve region s s.size hr]
    · simp [hg, ht, hr]
  · simp [hg, hr]

theorem ref_shrink_to_fit (region : List Byte) (s : SimpleBufferT)
    (hr : s.ref = false) : (shrink_to_fit region s).ref = false := by
  unfold shrink_to_fit
  by_cases hp : 0 < s.size
  · simp [hp, ref_reserve region s s.size hr]
  · simp [hp, hr]

theorem reserve_shrink_owned (region : List Byte) (s : SimpleBufferT) (n : Nat)
    (hlt : n < s.capacity) (hr : s.ref = false) :
    reserve region s n = { s with capacity := n, buf := reallocBytes s.buf n } := by
  unfold reserve
  rw [if_neg (by omega : ¬ n = s.capacity)]
  simp [hr, show ¬ n > s.capacity by omega]

theorem reserve_shrink_borrowed (region : List Byte) (s : SimpleBufferT) (n : Nat)
    (hlt : n < s.capacity) (hr : s.ref = true) :
    reserve region s n
      = { s with capacity := n, buf := reallocBytes (region.take s.size) n,
                 ref := false } := by
  unfold reserve
  rw [if_neg (by omega : ¬ n = s.capacity)]
  simp [hr, show ¬ n > s.capacity by omega]

/-! The representation invariant `Inv` holds in every reachable container
state: it holds for the default and `ref` constructors and is preserved by
`resize` (hence by `push_back` and the append path, which grow through
`resize`), `shrink`, `shrink_to_fit` and `clear`. -/

theorem Inv_mk0 (region : List Byte) : Inv region mk0 := by
  unfold Inv mk0
  simp

theorem Inv_refCtor (region : List Byte) : Inv region (refCtor region) := by
  unfold refCtor
  by_cases h : 0 < region.length
  · rw [if_pos h]
    exact ⟨Nat.le_refl _, fun hc => Bool.noConfusion hc, fun _ => rfl,
      fun h0 => absurd (show region.length = 0 from h0) (by omega)⟩
  · rw [if_neg h]
    exact Inv_mk0 region

theorem Inv_reserve_to_size (region : List Byte) (s : SimpleBufferT)
    (hI : Inv region s) (hp : 0 < s.size) : Inv region (reserve region s s.size) := by
  obtain ⟨h1, h2, h3, h4⟩ := hI
  by_cases he : s.size = s.capacity
  · unfold reserve
    rw [if_pos he]
    exact ⟨h1, h2, h3, h4⟩
  · have hlt : s.size < s.capacity := by omega
    cases hr : s.ref
    · rw [reserve_shrink_owned region s s.size hlt hr]
      refine ⟨Nat.le_refl _, fun _ => length_reallocBytes _ _, ?_,
        fun h0 => absurd (show s.size = 0 from h0) (by omega)⟩
      intro hcontra
      have hc2 : s.ref = true := hcontra
      rw [hr] at hc2
      exact Bool.noConfusion hc2
    · rw [reserve_shrink_borrowed region s s.size hlt hr]
      refine ⟨Nat.le_refl _, fun _ => length_reallocBytes _ _, ?_,
        fun h0 => absurd (show s.size = 0 from h0) (by omega)⟩
      intro hcontra
      exact Bool.noConfusion hcontra

theorem Inv_resize (region : List Byte) (s : SimpleBufferT) (n : Nat)
    (hI : Inv region s) : Inv region (resize region s n) := by
  obtain ⟨h1, h2, h3, h4⟩ := hI
  unfold resize
  by_cases h0 : n = 0
  · rw [if_pos h0]
    exact Inv_mk0 region
  · rw [if_neg h0]
    by_cases hc : n > s.capacity
    · rw [if_pos hc]
      cases hr : s.ref
      · rw [reserve_grow_owned region s n hc hr]
        refine ⟨?_, fun _ => length_reallocBytes _ _, ?_,
          fun hn0 => absurd (show n = 0 from hn0) h0⟩
        · show n ≤ max DEFAULT_MINI_SIZE (max n (2 * s.capacity))
          omega
        · intro hcontra
          have hc2 : s.ref = true := hcontra
          rw [hr] at hc2
          exact Bool.noConfusion hc2
      · rw [reserve_grow_borrowed region s n hc hr]
        refine ⟨?_, fun _ => length_reallocBytes _ _, ?_,
          fun hn0 => absurd (show n = 0 from hn0) h0⟩
        · show n ≤ max DEFAULT_MINI_SIZE (max n (2 * s.capacity))
          omega
        · intro hcontra
          exact Bool.noConfusion hcontra
    · rw [if_neg hc]
      exact ⟨show n ≤ s.capacity by omega, h2, h3,
        fun hn0 => absurd (show n = 0 from hn0) h0⟩

theorem Inv_shrink (region : List Byte) (s : SimpleBufferT)
    (hI : Inv region s) : Inv region (shrink region s) := by
  unfold shrink
  by_cases hg : 0 < s.size ∧ s.size < 2 * s.capacity
  · rw [if_pos hg]
    by_cases ht : s.shrink_counter + 1 > DEFAULT_SHRINK_TRIGGER_COUNT
    · rw [if_pos ht]
      exact Inv_reserve_to_size region s hI hg.1
    · rw [if_neg ht]
      exact hI
  · rw [if_neg hg]
    exact hI

theorem Inv_shrink_to_fit (region : List Byte) (s : SimpleBufferT)
    (hI : Inv region s) : Inv region (shrink_to_fit region s) := by
  unfold shrink_to_fit
  by_cases hp : 0 < s.size
  · rw [if_pos hp]
    exact Inv_reserve_to_size region s hI hp
  · rw [if_neg hp]
    exact hI

theorem Inv_clear (region : List Byte) (s : SimpleBufferT) :
    Inv region (clear s) :=
  Inv_mk0 region

end SimpleBufferT

end buffer_internal

open buffer_internal

/-- `ftl::StreamBufferT` (buffer.h lines 896-1088), specialised to byte
storage (`byte_streambuffer`). -/
structure StreamBufferT where
  read_index : Nat
  write_index : Nat
  buffer : BufferT
deriving DecidableEq, Repr

namespace StreamBufferT

/-- `StreamBufferT::read<_RetTy, endianness>` (buffer.h lines 987-995):
if `read_index_ + sizeof(_RetTy) > buffer_.size()` throw (via `xran`)
leaving the state untouched; otherwise decode at `read_index_` and advance
it by `sizeof(_RetTy)`. `n` is `sizeof(_RetTy)`; the decoded value is its
native byte pattern. -/
def read (host req : Endianness) (n : Nat) (s : StreamBufferT) :
    Except BufferError (List Byte) × StreamBufferT :=
  if s.read_index + n > s.buffer.size then (.error .OutOfRange, s)
  else (.ok (Endian.readBytes host req ((s.buffer.data.drop s.read_index).take n)),
        { s with read_index := s.read_index + n })

/-- `StreamBufferT::write<_SrcTy, endianness>` (buffer.h lines 1026-1034):
if `write_index_ + sizeof(_SrcTy) > buffer_.size()` throw (via `xran`)
leaving the state untouched; otherwise encode at `write_index_` and
advance it by `sizeof(_SrcTy)`. `pat` is the value's native byte
pattern. -/
def write (host req : Endianness) (pat : List Byte) (s : StreamBufferT) :
    Except BufferError Unit × StreamBufferT :=
  if s.write_index + pat.length > s.buffer.size then (.error .OutOfRange, s)
  else (.ok (),
        { s with write_index := s.write_index + pat.length,
                 buffer := ⟨BufferT.listOverwrite s.buffer.data s.write_index
                              (Endian.writeBytes host req pat)⟩ })

/-- `StreamBufferT::read_eof` (buffer.h lines 968-970). -/
def read_eof (s : StreamBufferT) : Bool := s.read_index ≥ s.buffer.size

/-- `StreamBufferT::write_eof` (buffer.h lines 972-974). -/
def write_eof (s : StreamBufferT) : Bool := s.write_index ≥ s.buffer.size

end StreamBufferT

/-! ## Claim theorems -/

/-- Claim C1: for every supported multi-byte numeric type `T` (16/32/64-bit
signed and unsigned integers, float, double — each represented bit-for-bit
by its native byte pattern `pat` with `pat.length = sizeof(T)`), every
requested byte order, and every host native order, writing the value at an
in-bounds offset with the requested order and then reading type `T` at the
same offset with the same requested order returns exactly the original
value, bit-for-bit. -/
theorem C1_endian_roundtrip (host req : Endianness) (b : BufferT) (offset n : Nat)
    (pat : List Byte) (hlen : pat.length = n) (hoff : offset + n ≤ b.size) :
    (BufferT.read host req n ((BufferT.write host req pat b offset).2) offset).1
      = .ok pat := by
  subst hlen
  have hw : (Endian.writeBytes host req pat).length = pat.length :=
    Endian.length_writeBytes host req pat
  have hle : offset + (Endian.writeBytes host req pat).length ≤ b.data.length := by
    unfold BufferT.size at hoff; omega
  have hmod : (offset + pat.length) % BufferT.UMAX ≤ offset + pat.length :=
    Nat.mod_le _ _
  unfold BufferT.write
  rw [if_neg (by omega : ¬ ((offset + pat.length) % BufferT.UMAX > b.size))]
  unfold BufferT.read
  have hsize : (BufferT.mk (BufferT.listOverwrite b.data offset
      (Endian.writeBytes host req pat))).size = b.size := by
    unfold BufferT.size at *
    simpa using BufferT.length_listOverwrite b.data offset _ hle
  rw [hsize, if_neg (by omega : ¬ ((offset + pat.length) % BufferT.UMAX > b.size))]
  have hextract := BufferT.extract_listOverwrite b.data offset
    (Endian.writeBytes host req pat) hle
  rw [hw] at hextract
  simp only [hextract, Endian.readBytes_writeBytes]

theorem C1_endian_roundtrip_witness :
    ([0xaa, 0xbb] : List Byte).length = 2
    ∧ 0 + 2 ≤ (BufferT.mk [1, 2, 3]).size
    ∧ (BufferT.read .kLittleEndian .kBigEndian 2
        ((BufferT.write .kLittleEndian .kBigEndian [0xaa, 0xbb] ⟨[1, 2, 3]⟩ 0).2) 0).1
        = .ok [0xaa, 0xbb] :=
  ⟨rfl, by decide,
    C1_endian_roundtrip .kLittleEndian .kBigEndian ⟨[1, 2, 3]⟩ 0 2 [0xaa, 0xbb]
      rfl (by decide)⟩

/-- Claim C2, evaluated where the code violates it: at
`offset = 2^64 - 2` with `sizeof(T) = 4` on a buffer of size 10 the claim
requires OutOfRange (the mathematical `offset + sizeof(T)` exceeds 10 —
first conjunct), but the source computes the guard as the `size_t` sum
`(2^64 - 2 + 4) mod 2^64 = 2`, which is not greater than 10: the check is
bypassed, nothing is thrown (`read` returns a value, `write` returns
normally), and the access goes through a wild out-of-bounds pointer. At
offsets where the sum does not wrap the guard agrees with the claim:
`read<uint32_t>(8)` on the same buffer throws OutOfRange, and
`read<uint32_t>(2)` succeeds, returning bytes 2..5 without mutating the
buffer. -/
theorem C2_bounds_check_bypass :
    (2 ^ 64 - 2) + 4 > (BufferT.mk [0, 1, 2, 3, 4, 5, 6, 7, 8, 9]).size
    ∧ (BufferT.read .kBigEndian .kBigEndian 4
        ⟨[0, 1, 2, 3, 4, 5, 6, 7, 8, 9]⟩ (2 ^ 64 - 2)).1 = .ok []
    ∧ (BufferT.write .kBigEndian .kBigEndian [0xaa, 0xbb, 0xcc, 0xdd]
        ⟨[0, 1, 2, 3, 4, 5, 6, 7, 8, 9]⟩ (2 ^ 64 - 2)).1 = .ok ()
    ∧ (BufferT.read .kBigEndian .kBigEndian 4
        ⟨[0, 1, 2, 3, 4, 5, 6, 7, 8, 9]⟩ 8).1 = .error .OutOfRange
    ∧ (BufferT.read .kBigEndian .kBigEndian 4 ⟨[0, 1, 2, 3, 4, 5, 6, 7, 8, 9]⟩ 2)
        = (.ok [2, 3, 4, 5], ⟨[0, 1, 2, 3, 4, 5, 6, 7, 8, 9]⟩) := by
  refine ⟨by decide, rfl, rfl, rfl, rfl⟩

/-- Claim C9: for every buffer whose bytes at offsets 0 and 1 are `0xff`
and `0xee`, `read_be<uint16_t>(0)` returns `0xffee` and
`read_le<uint16_t>(0)` returns `0xeeff`, on every host regardless of its
native byte order. -/
theorem C9_endian_example (host : Endianness) (b : BufferT)
    (h0 : b.data[0]? = some 0xff) (h1 : b.data[1]? = some 0xee) :
    (BufferT.read_be host 2 b 0).1 = .ok 0xffee
    ∧ (BufferT.read_le host 2 b 0).1 = .ok 0xeeff := by
  obtain ⟨d⟩ := b
  match d, h0, h1 with
  | a :: c :: t, h0, h1 =>
    simp only [List.getElem?_cons_zero, Option.some.injEq] at h0
    simp only [List.getElem?_cons_succ, List.getElem?_cons_zero, Option.some.injEq] at h1
    subst h0; subst h1
    unfold BufferT.read_be BufferT.read_le BufferT.readVal
    have hng : ¬ (0 + 2) % BufferT.UMAX > (BufferT.mk (255 :: 238 :: t)).size := by
      have h02 : (0 + 2) % BufferT.UMAX = 2 := by decide
      rw [h02]
      unfold BufferT.size
      simp only [List.length_cons]
      omega
    rw [if_neg hng, if_neg hng]
    simp only [List.drop_zero, List.take_succ_cons, List.take_zero, Prod.fst]
    cases host <;> exact ⟨rfl, rfl⟩

theorem C9_endian_example_witness :
    (BufferT.read_be .kLittleEndian 2 ⟨[0xff, 0xee]⟩ 0).1 = .ok 0xffee
    ∧ (BufferT.read_le .kLittleEndian 2 ⟨[0xff, 0xee]⟩ 0).1 = .ok 0xeeff :=
  C9_endian_example .kLittleEndian ⟨[0xff, 0xee]⟩ rfl rfl

/-- Claim C4: for the sequential `StreamBufferT`, `read` fails with
OutOfRange leaving the state (in particular `read_index`) unchanged iff
`read_index + sizeof(T) > size()`, and otherwise decodes `T` at
`read_index` (exactly as the random-access `BufferT::read` would at that
offset) and advances `read_index` by `sizeof(T)`; `write` is symmetric on
`write_index`; and no cursor read or write ever changes the underlying
buffer's size. -/
theorem C4_cursor_bounds (host req : Endianness) (n : Nat) (pat : List Byte)
    (s : StreamBufferT) :
    ((StreamBufferT.read host req n s).1 = .error .OutOfRange
        ↔ s.read_index + n > s.buffer.size)
    ∧ (s.read_index + n > s.buffer.size → (StreamBufferT.read host req n s).2 = s)
    ∧ (s.read_index + n ≤ s.buffer.size →
        (StreamBufferT.read host req n s).2.read_index = s.read_index + n
        ∧ (StreamBufferT.read host req n s).2.write_index = s.write_index
        ∧ (StreamBufferT.read host req n s).2.buffer = s.buffer
        ∧ (StreamBufferT.read host req n s).1
            = (BufferT.read host req n s.buffer s.read_index).1)
    ∧ ((StreamBufferT.write host req pat s).1 = .error .OutOfRange
        ↔ s.write_index + pat.length > s.buffer.size)
    ∧ (s.write_index + pat.length > s.buffer.size →
        (StreamBufferT.write host req pat s).2 = s)
    ∧ (s.write_index + pat.length ≤ s.buffer.size →
        (StreamBufferT.write host req pat s).2.write_index = s.write_index + pat.length
        ∧ (StreamBufferT.write host req pat s).2.read_index = s.read_index
        ∧ (StreamBufferT.write host req pat s).2.buffer.data
            = BufferT.listOverwrite s.buffer.data s.write_index
                (Endian.writeBytes host req pat))
    ∧ (StreamBufferT.read host req n s).2.buffer.size = s.buffer.size
    ∧ (StreamBufferT.write host req pat s).2.buffer.size = s.buffer.size := by
  have hw : (Endian.writeBytes host req pat).length = pat.length :=
    Endian.length_writeBytes host req pat
  refine ⟨?_, ?_, ?_, ?_, ?_, ?_, ?_, ?_⟩
  · unfold StreamBufferT.read
    split <;> simp_all
  · intro h
    unfold StreamBufferT.read
    rw [if_pos h]
  · intro h
    unfold StreamBufferT.read BufferT.read
    have hmod : (s.read_index + n) % BufferT.UMAX ≤ s.read_index + n :=
      Nat.mod_le _ _
    rw [if_neg (by omega : ¬ s.read_index + n > s.buffer.size),
      if_neg (by omega : ¬ (s.read_index + n) % BufferT.UMAX > s.buffer.size)]
    exact ⟨rfl, rfl, rfl, rfl⟩
  · unfold StreamBufferT.write
    split <;> simp_all
  · intro h
    unfold StreamBufferT.write
    rw [if_pos h]
  · intro h
    unfold StreamBufferT.write
    rw [if_neg (by omega)]
    exact ⟨rfl, rfl, rfl⟩
  · unfold StreamBufferT.read
    split <;> rfl
  · unfold StreamBufferT.write
    split
    · rfl
    · rename_i h
      unfold BufferT.size at *
      simp only []
      rw [BufferT.length_listOverwrite s.buffer.data s.write_index _ (by omega)]

theorem C4_cursor_bounds_witness :
    ((StreamBufferT.read .kBigEndian .kLittleEndian 2 ⟨0, 0, ⟨[1, 2, 3]⟩⟩).1
        = .error .OutOfRange ↔ 0 + 2 > (BufferT.mk [1, 2, 3]).size)
    ∧ (0 + 2 > (BufferT.mk [1, 2, 3]).size →
        (StreamBufferT.read .kBigEndian .kLittleEndian 2 ⟨0, 0, ⟨[1, 2, 3]⟩⟩).2
          = ⟨0, 0, ⟨[1, 2, 3]⟩⟩)
    ∧ (0 + 2 ≤ (BufferT.mk [1, 2, 3]).size →
        (StreamBufferT.read .kBigEndian .kLittleEndian 2 ⟨0, 0, ⟨[1, 2, 3]⟩⟩).2.read_index
          = 0 + 2
        ∧ (StreamBufferT.read .kBigEndian .kLittleEndian 2
            ⟨0, 0, ⟨[1, 2, 3]⟩⟩).2.write_index = 0
        ∧ (StreamBufferT.read .kBigEndian .kLittleEndian 2
            ⟨0, 0, ⟨[1, 2, 3]⟩⟩).2.buffer = ⟨[1, 2, 3]⟩
        ∧ (StreamBufferT.read .kBigEndian .kLittleEndian 2 ⟨0, 0, ⟨[1, 2, 3]⟩⟩).1
            = (BufferT.read .kBigEndian .kLittleEndian 2 ⟨[1, 2, 3]⟩ 0).1)
    ∧ ((StreamBufferT.write .kBigEndian .kLittleEndian [7, 8] ⟨0, 0, ⟨[1, 2, 3]⟩⟩).1
        = .error .OutOfRange
        ↔ 0 + ([7, 8] : List Byte).length > (BufferT.mk [1, 2, 3]).size)
    ∧ (0 + ([7, 8] : List Byte).length > (BufferT.mk [1, 2, 3]).size →
        (StreamBufferT.write .kBigEndian .kLittleEndian [7, 8] ⟨0, 0, ⟨[1, 2, 3]⟩⟩).2
          = ⟨0, 0, ⟨[1, 2, 3]⟩⟩)
    ∧ (0 + ([7, 8] : List Byte).length ≤ (BufferT.mk [1, 2, 3]).size →
        (StreamBufferT.write .kBigEndian .kLittleEndian [7, 8]
            ⟨0, 0, ⟨[1, 2, 3]⟩⟩).2.write_index = 0 + ([7, 8] : List Byte).length
        ∧ (StreamBufferT.write .kBigEndian .kLittleEndian [7, 8]
            ⟨0, 0, ⟨[1, 2, 3]⟩⟩).2.read_index = 0
        ∧ (StreamBufferT.write .kBigEndian .kLittleEndian [7, 8]
            ⟨0, 0, ⟨[1, 2, 3]⟩⟩).2.buffer.data
            = BufferT.listOverwrite [1, 2, 3] 0
                (Endian.writeBytes .kBigEndian .kLittleEndian [7, 8]))
    ∧ (StreamBufferT.read .kBigEndian .kLittleEndian 2
        ⟨0, 0, ⟨[1, 2, 3]⟩⟩).2.buffer.size = (BufferT.mk [1, 2, 3]).size
    ∧ (StreamBufferT.write .kBigEndian .kLittleEndian [7, 8]
        ⟨0, 0, ⟨[1, 2, 3]⟩⟩).2.buffer.size = (BufferT.mk [1, 2, 3]).size :=
  C4_cursor_bounds .kBigEndian .kLittleEndian 2 [7, 8] ⟨0, 0, ⟨[1, 2, 3]⟩⟩

/-- Claim C5: the clamped copy works as claimed at `slice(8, 100)` on a
10-byte buffer (exactly the 2 bytes at indices 8 and 9), but the claim
"the result is an empty Buffer when `offset >= size()`" fails for
`offset > size()`: there the `size_t` difference `size() - offset` wraps
around, and `slice(15, 1)` on a 10-byte buffer asks the copying
constructor for `2^64 - 5` bytes taken from past the end of the region,
instead of producing an empty buffer. -/
theorem C5_slice_clamp_and_underflow :
    BufferT.slice ⟨[0, 1, 2, 3, 4, 5, 6, 7, 8, 9]⟩ 8 100 = ⟨[8, 9]⟩
    ∧ BufferT.sliceCount ⟨[0, 1, 2, 3, 4, 5, 6, 7, 8, 9]⟩ 15 1 = 2 ^ 64 - 5 := by
  constructor
  · rfl
  · rfl

/-- Claim C8, counterexample: at a 4-byte buffer, `fill(9, offset 2,
count 100)` has `count > 0` and `offset + count > size()`, so the claim
says it fails with OutOfRange; the source `fill` has no error path at all —
it silently clamps the count to `size() - offset = 2` and overwrites the
two bytes at offsets 2 and 3. The third conjunct records the clamp's own
`size_t` limitation: for `fill(v, offset 1, count 2^64 - 1)` on a 3-byte
buffer the sum `offset + count` wraps to 0, the clamping branch is
bypassed, and the code fills `2^64 - 1` bytes past the buffer instead of
clamping — which is why the amended claim is restricted to non-wrapping
counts. -/
theorem C8_fill_counterexample :
    BufferT.fill ⟨[1, 1, 1, 1]⟩ 9 2 100 = ⟨[1, 1, 9, 9]⟩
    ∧ BufferT.fill ⟨[1, 1, 1, 1]⟩ 9 2 100 ≠ ⟨[1, 1, 1, 1]⟩
    ∧ BufferT.fillCount ⟨[0, 0, 0]⟩ 1 (2 ^ 64 - 1) = 2 ^ 64 - 1 := by
  refine ⟨rfl, by decide, rfl⟩

theorem usub_of_le (a c : Nat) (h : c ≤ a) (ha : a < BufferT.UMAX) :
    BufferT.usub a c = a - c := by
  unfold BufferT.usub
  have h1 : a + (BufferT.UMAX - c) = BufferT.UMAX + (a - c) := by
    have hc : c ≤ BufferT.UMAX := le_trans h (le_of_lt ha)
    omega
  rw [h1, Nat.add_mod_left, Nat.mod_eq_of_lt (by omega)]

/-- Claim C7: `shrink_to_fit()` unconditionally compacts the container's
capacity to exactly its size, whatever the trigger counter's value (the
counter is only reset to 0); in particular, when `size == 0` the result is
the empty state (no backing memory, capacity 0). -/
theorem C7_shrink_to_fit (region : List Byte) (s : SimpleBufferT)
    (hInv : SimpleBufferT.Inv region s) :
    (SimpleBufferT.shrink_to_fit region s).capacity = s.size
    ∧ (SimpleBufferT.shrink_to_fit region s).size = s.size
    ∧ (SimpleBufferT.shrink_to_fit region s).shrink_counter = 0
    ∧ (s.size = 0 → (SimpleBufferT.shrink_to_fit region s).buf = []
        ∧ (SimpleBufferT.shrink_to_fit region s).capacity = 0) := by
  obtain ⟨h1, h2, h3, h4⟩ := hInv
  by_cases hp : 0 < s.size
  · unfold SimpleBufferT.shrink_to_fit
    rw [if_pos hp]
    refine ⟨?_, ?_, rfl, ?_⟩
    · exact SimpleBufferT.capacity_reserve_of_le region s s.size h1
    · exact SimpleBufferT.size_reserve region s s.size
    · intro h0
      omega
  · have h0 : s.size = 0 := by omega
    obtain ⟨hc, hb, _⟩ := h4 h0
    unfold SimpleBufferT.shrink_to_fit
    rw [if_neg hp]
    exact ⟨by simp [hc, h0], rfl, rfl, fun _ => ⟨hb, hc⟩⟩

theorem C7_shrink_to_fit_witness :
    SimpleBufferT.Inv [] ⟨[0, 0, 0, 0], 3, 4, 5, false⟩
    ∧ ((SimpleBufferT.shrink_to_fit [] ⟨[0, 0, 0, 0], 3, 4, 5, false⟩).capacity = 3
    ∧ (SimpleBufferT.shrink_to_fit [] ⟨[0, 0, 0, 0], 3, 4, 5, false⟩).size = 3
    ∧ (SimpleBufferT.shrink_to_fit [] ⟨[0, 0, 0, 0], 3, 4, 5, false⟩).shrink_counter = 0
    ∧ ((3 : Nat) = 0 →
        (SimpleBufferT.shrink_to_fit [] ⟨[0, 0, 0, 0], 3, 4, 5, false⟩).buf = []
        ∧ (SimpleBufferT.shrink_to_fit [] ⟨[0, 0, 0, 0], 3, 4, 5, false⟩).capacity = 0)) :=
  ⟨by decide, C7_shrink_to_fit [] ⟨[0, 0, 0, 0], 3, 4, 5, false⟩ (by decide)⟩

/-- Claim C10: for every container state with `0 < size ≤ capacity` (which
covers every reachable non-empty container), the `shrink()` guard
`size > 0 && size < 2*capacity` is true, so `shrink()` increments the
trigger counter on every such call and the third consecutive call (from a
zero counter) compacts capacity to exactly `size` and resets the counter;
the guard never suppresses compaction based on the size-to-capacity
ratio. -/
theorem C10_shrink_trigger (region : List Byte) (s : SimpleBufferT)
    (h1 : 0 < s.size) (h2 : s.size ≤ s.capacity) :
    (0 < s.size ∧ s.size < 2 * s.capacity)
    ∧ (s.shrink_counter < 2 →
        SimpleBufferT.shrink region s
          = { s with shrink_counter := s.shrink_counter + 1 })
    ∧ (2 ≤ s.shrink_counter →
        (SimpleBufferT.shrink region s).capacity = s.size
        ∧ (SimpleBufferT.shrink region s).shrink_counter = 0
        ∧ (SimpleBufferT.shrink region s).size = s.size)
    ∧ (s.shrink_counter = 0 →
        (SimpleBufferT.shrink region (SimpleBufferT.shrink region
          (SimpleBufferT.shrink region s))).capacity = s.size
        ∧ (SimpleBufferT.shrink region (SimpleBufferT.shrink region
          (SimpleBufferT.shrink region s))).shrink_counter = 0) := by
  have hinc : ∀ t : SimpleBufferT, t.size = s.size → t.capacity = s.capacity →
      t.shrink_counter < 2 →
      SimpleBufferT.shrink region t
        = { t with shrink_counter := t.shrink_counter + 1 } := by
    intro t hts htc htn
    unfold SimpleBufferT.shrink SimpleBufferT.DEFAULT_SHRINK_TRIGGER_COUNT
    rw [if_pos (by omega : 0 < t.size ∧ t.size < 2 * t.capacity),
      if_neg (by omega : ¬ t.shrink_counter + 1 > 2)]
  have hcompact : ∀ t : SimpleBufferT, t.size = s.size → t.capacity = s.capacity →
      2 ≤ t.shrink_counter →
      (SimpleBufferT.shrink region t).capacity = t.size
      ∧ (SimpleBufferT.shrink region t).shrink_counter = 0
      ∧ (SimpleBufferT.shrink region t).size = t.size := by
    intro t hts htc htn
    unfold SimpleBufferT.shrink SimpleBufferT.DEFAULT_SHRINK_TRIGGER_COUNT
    rw [if_pos (by omega : 0 < t.size ∧ t.size < 2 * t.capacity),
      if_pos (by omega : t.shrink_counter + 1 > 2)]
    refine ⟨?_, rfl, ?_⟩
    · exact SimpleBufferT.capacity_reserve_of_le region t t.size (by omega)
    · exact SimpleBufferT.size_reserve region t t.size
  refine ⟨by omega, fun h => hinc s rfl rfl h, fun h => hcompact s rfl rfl h, ?_⟩
  intro hc
  obtain ⟨sb, ss, sc, scnt, sr⟩ := s
  have hc2 : scnt = 0 := hc
  subst hc2
  have t1 : SimpleBufferT.shrink region ⟨sb, ss, sc, 0, sr⟩ = ⟨sb, ss, sc, 1, sr⟩ :=
    hinc ⟨sb, ss, sc, 0, sr⟩ rfl rfl (show (0 : Nat) < 2 by omega)
  have t2 : SimpleBufferT.shrink region ⟨sb, ss, sc, 1, sr⟩ = ⟨sb, ss, sc, 2, sr⟩ :=
    hinc ⟨sb, ss, sc, 1, sr⟩ rfl rfl (show (1 : Nat) < 2 by omega)
  have t3 := hcompact ⟨sb, ss, sc, 2, sr⟩ rfl rfl (show (2 : Nat) ≤ 2 by omega)
  rw [t1, t2]
  exact ⟨t3.1, t3.2.1⟩

theorem C10_shrink_trigger_witness :
    0 < (2 : Nat) ∧ (2 : Nat) ≤ 4
    ∧ ((0 < (⟨[0, 0, 0, 0], 2, 4, 0, false⟩ : SimpleBufferT).size
        ∧ (⟨[0, 0, 0, 0], 2, 4, 0, false⟩ : SimpleBufferT).size
            < 2 * (⟨[0, 0, 0, 0], 2, 4, 0, false⟩ : SimpleBufferT).capacity)
    ∧ ((⟨[0, 0, 0, 0], 2, 4, 0, false⟩ : SimpleBufferT).shrink_counter < 2 →
        SimpleBufferT.shrink [] ⟨[0, 0, 0, 0], 2, 4, 0, false⟩
          = { (⟨[0, 0, 0, 0], 2, 4, 0, false⟩ : SimpleBufferT) with
                shrink_counter :=
                  (⟨[0, 0, 0, 0], 2, 4, 0, false⟩ : SimpleBufferT).shrink_counter + 1 })
    ∧ (2 ≤ (⟨[0, 0, 0, 0], 2, 4, 0, false⟩ : SimpleBufferT).shrink_counter →
        (SimpleBufferT.shrink [] ⟨[0, 0, 0, 0], 2, 4, 0, false⟩).capacity = 2
        ∧ (SimpleBufferT.shrink [] ⟨[0, 0, 0, 0], 2, 4, 0, false⟩).shrink_counter = 0
        ∧ (SimpleBufferT.shrink [] ⟨[0, 0, 0, 0], 2, 4, 0, false⟩).size = 2)
    ∧ ((⟨[0, 0, 0, 0], 2, 4, 0, false⟩ : SimpleBufferT).shrink_counter = 0 →
        (SimpleBufferT.shrink [] (SimpleBufferT.shrink []
          (SimpleBufferT.shrink [] ⟨[0, 0, 0, 0], 2, 4, 0, false⟩))).capacity = 2
        ∧ (SimpleBufferT.shrink [] (SimpleBufferT.shrink []
          (SimpleBufferT.shrink [] ⟨[0, 0, 0, 0], 2, 4, 0, false⟩))).shrink_counter = 0)) :=
  ⟨by decide, by decide,
    C10_shrink_trigger [] ⟨[0, 0, 0, 0], 2, 4, 0, false⟩ (by decide) (by decide)⟩

/-- Claim C6: a buffer constructed by reference over a caller-supplied
region of length `n > 0` (Borrowed, zero-copy) and then grown past `n` no
longer aliases the caller's region: the ownership tag has become Owned;
the buffer's first `n` bytes immediately after the transition equal the
region's bytes at the moment of transition; the buffer's contents no
longer depend on the region, so every subsequent mutation of the caller's
region leaves the buffer's contents unchanged; and a byte store through
the buffer now lands in the owned allocation, leaving the caller's region
unchanged. -/
theorem C6_borrow_to_owned (r : List Byte) (m : Nat)
    (hn : 0 < r.length) (hm : r.length < m) :
    (SimpleBufferT.resize r (SimpleBufferT.refCtor r) m).ref = false
    ∧ (SimpleBufferT.contents r
        (SimpleBufferT.resize r (SimpleBufferT.refCtor r) m)).take r.length = r
    ∧ (∀ u : List Byte,
        SimpleBufferT.contents u (SimpleBufferT.resize r (SimpleBufferT.refCtor r) m)
          = SimpleBufferT.contents r (SimpleBufferT.resize r (SimpleBufferT.refCtor r) m))
    ∧ (∀ (i : Nat) (v : Byte),
        (SimpleBufferT.writeByteW
          ⟨r, SimpleBufferT.resize r (SimpleBufferT.refCtor r) m⟩ i v).region = r) := by
  have e0 : SimpleBufferT.refCtor r = ⟨[], r.length, r.length, 0, true⟩ := by
    unfold SimpleBufferT.refCtor
    rw [if_pos hn]
  have e2 : SimpleBufferT.reserve r ⟨[], r.length, r.length, 0, true⟩ m
      = ⟨SimpleBufferT.reallocBytes (r.take r.length)
           (max SimpleBufferT.DEFAULT_MINI_SIZE (max m (2 * r.length))),
         r.length, max SimpleBufferT.DEFAULT_MINI_SIZE (max m (2 * r.length)),
         0, false⟩ :=
    SimpleBufferT.reserve_grow_borrowed r ⟨[], r.length, r.length, 0, true⟩ m hm rfl
  have e3 : SimpleBufferT.resize r (SimpleBufferT.refCtor r) m
      = ⟨SimpleBufferT.reallocBytes (r.take r.length)
           (max SimpleBufferT.DEFAULT_MINI_SIZE (max m (2 * r.length))),
         m, max SimpleBufferT.DEFAULT_MINI_SIZE (max m (2 * r.length)),
         0, false⟩ := by
    rw [e0]
    unfold SimpleBufferT.resize
    rw [if_neg (by omega : ¬ m = 0),
      if_pos (show m > (⟨[], r.length, r.length, 0, true⟩ : SimpleBufferT).capacity
        from hm), e2]
  rw [e3]
  have hM : r.length ≤ max SimpleBufferT.DEFAULT_MINI_SIZE (max m (2 * r.length)) := by
    have hmini : SimpleBufferT.DEFAULT_MINI_SIZE = 32 := rfl
    omega
  refine ⟨rfl, ?_, ?_, ?_⟩
  · unfold SimpleBufferT.contents
    simp only [Bool.false_eq_true, if_false, List.take_length]
    rw [List.take_take]
    have hmin : min r.length m = r.length := by omega
    rw [hmin, SimpleBufferT.take_reallocBytes r _ r.length (Nat.le_refl _) hM,
      List.take_length]
  · intro u
    unfold SimpleBufferT.contents
    simp
  · intro i v
    unfold SimpleBufferT.writeByteW
    simp

theorem C6_borrow_to_owned_witness :
    0 < ([1, 2, 3] : List Byte).length ∧ ([1, 2, 3] : List Byte).length < 5
    ∧ ((SimpleBufferT.resize [1, 2, 3] (SimpleBufferT.refCtor [1, 2, 3]) 5).ref = false
    ∧ (SimpleBufferT.contents [1, 2, 3]
        (SimpleBufferT.resize [1, 2, 3] (SimpleBufferT.refCtor [1, 2, 3]) 5)).take
          ([1, 2, 3] : List Byte).length = [1, 2, 3]
    ∧ (∀ u : List Byte,
        SimpleBufferT.contents u
            (SimpleBufferT.resize [1, 2, 3] (SimpleBufferT.refCtor [1, 2, 3]) 5)
          = SimpleBufferT.contents [1, 2, 3]
              (SimpleBufferT.resize [1, 2, 3] (SimpleBufferT.refCtor [1, 2, 3]) 5))
    ∧ (∀ (i : Nat) (v : Byte),
        (SimpleBufferT.writeByteW
          ⟨[1, 2, 3], SimpleBufferT.resize [1, 2, 3]
            (SimpleBufferT.refCtor [1, 2, 3]) 5⟩ i v).region = [1, 2, 3])) :=
  ⟨by decide, by decide,
    C6_borrow_to_owned [1, 2, 3] 5 (by decide) (by decide)⟩

/-- Claim C8, amended: `fill(value, offset, count)` (for `offset ≤ size()`
and a count whose `size_t` sum `offset + count` does not wrap) never
fails: when `count > 0` and `offset + count > size()` it silently clamps
and overwrites the `size() - offset` bytes from `offset` to the end of the
buffer (exactly as it does when `count == 0`); when `0 < count` and
`offset + count <= size()` it overwrites exactly `count` bytes starting at
`offset` with the value. (For `offset + count ≥ 2^64` the wrapped sum
bypasses the clamp and the fill runs out of bounds — see the
counterexample's third conjunct.) -/
theorem C8_fill_amended (b : BufferT) (v : Byte) (offset count : Nat)
    (hoff : offset ≤ b.size) (hsz : b.size < BufferT.UMAX)
    (hnw : offset + count < BufferT.UMAX) :
    (count = 0 ∨ offset + count > b.size →
      BufferT.fill b v offset count
        = ⟨b.data.take offset ++ List.replicate (b.size - offset) v⟩)
    ∧ (0 < count → offset + count ≤ b.size →
      BufferT.fill b v offset count
        = ⟨b.data.take offset ++ List.replicate count v ++ b.data.drop (offset + count)⟩) := by
  have hmod : (offset + count) % BufferT.UMAX = offset + count :=
    Nat.mod_eq_of_lt hnw
  constructor
  · intro h
    unfold BufferT.fill BufferT.fillCount
    rw [if_pos (show count = 0 ∨ (offset + count) % BufferT.UMAX > b.size by
        rw [hmod]; exact h),
      usub_of_le _ _ hoff hsz]
    unfold BufferT.listOverwrite
    congr 1
    have h2 : offset + (List.replicate (b.size - offset) v).length = b.data.length := by
      unfold BufferT.size at *
      simp only [List.length_replicate]
      omega
    rw [h2, List.drop_length, List.append_nil]
  · intro hc hle
    unfold BufferT.fill BufferT.fillCount
    rw [if_neg (show ¬ (count = 0 ∨ (offset + count) % BufferT.UMAX > b.size) by
        rw [hmod]; omega)]
    unfold BufferT.listOverwrite
    congr 1
    rw [List.length_replicate]

/-- Claim C3: container `reserve(n)`: if `n > capacity`, the new capacity
equals `max(n, 2*old_capacity, 32)`, the first `size` bytes of content are
preserved across the reallocation, and — when the container is Borrowed —
this growth path copies the current contents into freshly allocated owned
memory and flips the ownership tag to Owned, a one-way transition no
operation ever reverts (`ref = false` is preserved by `reserve`, `resize`,
`shrink`, `shrink_to_fit` and `clear`); if `n < capacity`, capacity is
reduced to exactly `n`; if `n == capacity`, the call is a no-op. -/
theorem C3_reserve (region : List Byte) (s : SimpleBufferT) (n : Nat)
    (hInv : SimpleBufferT.Inv region s) :
    (n > s.capacity →
      (SimpleBufferT.reserve region s n).capacity = max (max n (2 * s.capacity)) 32
      ∧ SimpleBufferT.contents region (SimpleBufferT.reserve region s n)
          = SimpleBufferT.contents region s
      ∧ (SimpleBufferT.reserve region s n).ref = false)
    ∧ (n < s.capacity → (SimpleBufferT.reserve region s n).capacity = n)
    ∧ (n = s.capacity → SimpleBufferT.reserve region s n = s)
    ∧ (s.ref = false →
        (SimpleBufferT.reserve region s n).ref = false
        ∧ (SimpleBufferT.resize region s n).ref = false
        ∧ (SimpleBufferT.shrink region s).ref = false
        ∧ (SimpleBufferT.shrink_to_fit region s).ref = false
        ∧ (SimpleBufferT.clear s).ref = false) := by
  obtain ⟨h1, h2, h3, h4⟩ := hInv
  have hmini : SimpleBufferT.DEFAULT_MINI_SIZE = 32 := rfl
  refine ⟨?_, ?_, ?_, ?_⟩
  · intro hgt
    cases hr : s.ref
    · have hbuf : s.buf.length = s.capacity := h2 hr
      rw [SimpleBufferT.reserve_grow_owned region s n hgt hr]
      refine ⟨by simp only []; omega, ?_, hr⟩
      unfold SimpleBufferT.contents
      simp only [hr, Bool.false_eq_true, if_false]
      exact SimpleBufferT.take_reallocBytes s.buf _ s.size (by omega) (by omega)
    · have hreg : s.capacity = region.length := h3 hr
      rw [SimpleBufferT.reserve_grow_borrowed region s n hgt hr]
      refine ⟨by simp only []; omega, ?_, rfl⟩
      unfold SimpleBufferT.contents
      simp only [hr, Bool.false_eq_true, if_false, if_true]
      have hlen : (region.take s.size).length = s.size := by
        simp only [List.length_take]; omega
      rw [SimpleBufferT.take_reallocBytes (region.take s.size) _ s.size
        (by omega) (by omega)]
      simp [List.take_take]
  · intro hlt
    exact SimpleBufferT.capacity_reserve_of_le region s n (by omega)
  · intro he
    unfold SimpleBufferT.reserve
    rw [if_pos he]
  · intro hr
    exact ⟨SimpleBufferT.ref_reserve region s n hr,
      SimpleBufferT.ref_resize region s n hr,
      SimpleBufferT.ref_shrink region s hr,
      SimpleBufferT.ref_shrink_to_fit region s hr, rfl⟩

theorem C3_reserve_witness :
    SimpleBufferT.Inv [] ⟨[0, 0, 0, 0], 3, 4, 0, false⟩
    ∧ ((10 > (4 : Nat) →
        (SimpleBufferT.reserve [] ⟨[0, 0, 0, 0], 3, 4, 0, false⟩ 10).capacity
            = max (max 10 (2 * 4)) 32
        ∧ SimpleBufferT.contents []
              (SimpleBufferT.reserve [] ⟨[0, 0, 0, 0], 3, 4, 0, false⟩ 10)
            = SimpleBufferT.contents [] ⟨[0, 0, 0, 0], 3, 4, 0, false⟩
        ∧ (SimpleBufferT.reserve [] ⟨[0, 0, 0, 0], 3, 4, 0, false⟩ 10).ref = false)
    ∧ (10 < (4 : Nat) →
        (SimpleBufferT.reserve [] ⟨[0, 0, 0, 0], 3, 4, 0, false⟩ 10).capacity = 10)
    ∧ ((10 : Nat) = 4 →
        SimpleBufferT.reserve [] ⟨[0, 0, 0, 0], 3, 4, 0, false⟩ 10
          = ⟨[0, 0, 0, 0], 3, 4, 0, false⟩)
    ∧ ((⟨[0, 0, 0, 0], 3, 4, 0, false⟩ : SimpleBufferT).ref = false →
        (SimpleBufferT.reserve [] ⟨[0, 0, 0, 0], 3, 4, 0, false⟩ 10).ref = false
        ∧ (SimpleBufferT.resize [] ⟨[0, 0, 0, 0], 3, 4, 0, false⟩ 10).ref = false
        ∧ (SimpleBufferT.shrink [] ⟨[0, 0, 0, 0], 3, 4, 0, false⟩).ref = false
        ∧ (SimpleBufferT.shrink_to_fit [] ⟨[0, 0, 0, 0], 3, 4, 0, false⟩).ref = false
        ∧ (SimpleBufferT.clear ⟨[0, 0, 0, 0], 3, 4, 0, false⟩).ref = false)) :=
  ⟨by decide, C3_reserve [] ⟨[0, 0, 0, 0], 3, 4, 0, false⟩ 10 (by decide)⟩

theorem C8_fill_amended_witness :
    (0 = 0 ∨ 1 + 0 > (BufferT.mk [5, 5, 5]).size →
      BufferT.fill ⟨[5, 5, 5]⟩ 9 1 0
        = ⟨([5, 5, 5] : List Byte).take 1
            ++ List.replicate ((BufferT.mk [5, 5, 5]).size - 1) 9⟩)
    ∧ (0 < 0 → 1 + 0 ≤ (BufferT.mk [5, 5, 5]).size →
      BufferT.fill ⟨[5, 5, 5]⟩ 9 1 0
        = ⟨([5, 5, 5] : List Byte).take 1 ++ List.replicate 0 9
            ++ ([5, 5, 5] : List Byte).drop (1 + 0)⟩) :=
  C8_fill_amended ⟨[5, 5, 5]⟩ 9 1 0 (by decide) (by decide) (by decide)

end ftl
